import Mathlib

/-!
Verification of bradfitz/latlong: shallow embedding of the tile-key codec
(latlong.go), the hierarchical tile classifier of the generation pass
(gen_test.go, TestGenerate), the span quantizer (mono_painter_tmp.go,
MyMonochromePainter.Paint), and the public lookup entry point
(latlong.go, LookupZoneName), together with proofs of the spec's claims
about them.

Machine integers are modelled as Nat with explicit masking/mod where the
Go code masks or converts; all definitions are executable.
-/

/-! ### Tile key codec (latlong.go lines 55-74)

Go:
```
type tileKey uint32
func newTileKey(size uint8, x, y uint16) tileKey {
  return tileKey(size&7)<<28 | tileKey(y&(1<<14-1))<<14 | tileKey(x&(1<<14-1))
}
func (v tileKey) size() uint8  { return byte(v >> 28) }
func (v tileKey) x() uint16    { return uint16(v & (1<<14 - 1)) }
func (v tileKey) y() uint16    { return uint16((v >> 14) & (1<<14 - 1)) }
```
The three masked fields occupy bits 28-30, 14-27 and 0-13, so none of the
uint32 operations can overflow 2^32 (the packed value is < 2^31); the Nat
model therefore needs no final `% 2^32`.  The Go integer conversions
`byte(...)` and `uint16(...)` are modelled as `% 256` and `% 65536`. -/

def newTileKey (size x y : Nat) : Nat :=
  ((size &&& 7) <<< 28) ||| ((y &&& (1 <<< 14 - 1)) <<< 14) ||| (x &&& (1 <<< 14 - 1))

def tileKey.size (v : Nat) : Nat := (v >>> 28) % 256

def tileKey.x (v : Nat) : Nat := (v &&& (1 <<< 14 - 1)) % 65536

def tileKey.y (v : Nat) : Nat := ((v >>> 14) &&& (1 <<< 14 - 1)) % 65536

/-- The packed key in plain positional arithmetic: the bitwise ORs of the
three shifted, masked fields amount to base-2^14 positional addition. -/
theorem newTileKey_eq (size x y : Nat) :
    newTileKey size x y = (size % 8) * 2 ^ 28 + (y % 2 ^ 14) * 2 ^ 14 + (x % 2 ^ 14) := by
  unfold newTileKey
  have h7 : (7 : Nat) = 2 ^ 3 - 1 := by norm_num
  have h14 : (1 <<< 14 - 1 : Nat) = 2 ^ 14 - 1 := by decide
  rw [h7, h14, Nat.and_pow_two_sub_one_eq_mod, Nat.and_pow_two_sub_one_eq_mod,
    Nat.and_pow_two_sub_one_eq_mod, Nat.shiftLeft_eq, Nat.shiftLeft_eq]
  have hy : (y % 2 ^ 14) * 2 ^ 14 < 2 ^ 28 := by
    have : y % 2 ^ 14 < 2 ^ 14 := Nat.mod_lt _ (by norm_num)
    calc (y % 2 ^ 14) * 2 ^ 14 < 2 ^ 14 * 2 ^ 14 :=
          (Nat.mul_lt_mul_right (by norm_num)).mpr this
      _ = 2 ^ 28 := by norm_num
  have hx : x % 2 ^ 14 < 2 ^ 14 := Nat.mod_lt _ (by norm_num)
  have h1 : (size % 8) * 2 ^ 28 ||| (y % 2 ^ 14) * 2 ^ 14
      = (size % 8) * 2 ^ 28 + (y % 2 ^ 14) * 2 ^ 14 := by
    rw [Nat.mul_comm (size % 8) (2 ^ 28)]
    exact (Nat.mul_add_lt_is_or hy (size % 8)).symm
  have h2 : ((size % 8) * 2 ^ 28 + (y % 2 ^ 14) * 2 ^ 14) ||| (x % 2 ^ 14)
      = (size % 8) * 2 ^ 28 + (y % 2 ^ 14) * 2 ^ 14 + (x % 2 ^ 14) := by
    have hrw : (size % 8) * 2 ^ 28 + (y % 2 ^ 14) * 2 ^ 14
        = 2 ^ 14 * ((size % 8) * 2 ^ 14 + y % 2 ^ 14) := by ring
    rw [hrw]
    exact (Nat.mul_add_lt_is_or hx _).symm
  rw [h1, h2]

/-- Field extraction in plain arithmetic. -/
theorem tileKey.size_eq (v : Nat) : tileKey.size v = v / 2 ^ 28 % 256 := by
  unfold tileKey.size
  rw [Nat.shiftRight_eq_div_pow]

/-- Field extraction in plain arithmetic. -/
theorem tileKey.x_eq (v : Nat) : tileKey.x v = v % 2 ^ 14 % 65536 := by
  unfold tileKey.x
  have h14 : (1 <<< 14 - 1 : Nat) = 2 ^ 14 - 1 := by decide
  rw [h14, Nat.and_pow_two_sub_one_eq_mod]

/-- Field extraction in plain arithmetic. -/
theorem tileKey.y_eq (v : Nat) : tileKey.y v = v / 2 ^ 14 % 2 ^ 14 % 65536 := by
  unfold tileKey.y
  have h14 : (1 <<< 14 - 1 : Nat) = 2 ^ 14 - 1 := by decide
  rw [h14, Nat.and_pow_two_sub_one_eq_mod, Nat.shiftRight_eq_div_pow]

/-- Decoding an in-range encoded key recovers all three fields (helper,
shared by the claims about the codec and the generation pass). -/
theorem decode_newTileKey {size x y : Nat} (hs : size < 8) (hx : x < 2 ^ 14)
    (hy : y < 2 ^ 14) :
    tileKey.size (newTileKey size x y) = size ∧
    tileKey.x (newTileKey size x y) = x ∧
    tileKey.y (newTileKey size x y) = y := by
  rw [tileKey.size_eq, tileKey.x_eq, tileKey.y_eq, newTileKey_eq]
  have e14 : (2 : Nat) ^ 14 = 16384 := by norm_num
  have e28 : (2 : Nat) ^ 28 = 268435456 := by norm_num
  rw [e14, e28] at *
  omega

/-! ### Claims C2, C8, C9: properties of the tile key codec -/

/-- C2: for every level in 0..5 and every x, y in 0..2^14-1, decoding an
encoded tile key returns exactly the inputs: `newTileKey(level,x,y)` has
`size() = level`, `x() = x` and `y() = y`. -/
theorem tileKey_roundtrip (level x y : Nat) (hl : level ≤ 5) (hx : x < 2 ^ 14)
    (hy : y < 2 ^ 14) :
    tileKey.size (newTileKey level x y) = level ∧
    tileKey.x (newTileKey level x y) = x ∧
    tileKey.y (newTileKey level x y) = y :=
  decode_newTileKey (by omega) hx hy

/-- Witness for C2 at a concrete in-range input. -/
theorem tileKey_roundtrip_witness :
    (3 ≤ 5 ∧ 5 < 2 ^ 14 ∧ 7 < 2 ^ 14) ∧
    (tileKey.size (newTileKey 3 5 7) = 3 ∧
     tileKey.x (newTileKey 3 5 7) = 5 ∧
     tileKey.y (newTileKey 3 5 7) = 7) :=
  ⟨by decide, tileKey_roundtrip 3 5 7 (by decide) (by decide) (by decide)⟩

/-- C8: for two keys built with the same level field, comparing the raw
packed integers orders them exactly like comparing (y, x) lexicographically
(y first, then x). -/
theorem tileKey_raw_order_iff_yx_lex (L x1 y1 x2 y2 : Nat)
    (hx1 : x1 < 2 ^ 14) (hy1 : y1 < 2 ^ 14) (hx2 : x2 < 2 ^ 14) (hy2 : y2 < 2 ^ 14) :
    newTileKey L x1 y1 < newTileKey L x2 y2 ↔
      (y1 < y2 ∨ (y1 = y2 ∧ x1 < x2)) := by
  rw [newTileKey_eq, newTileKey_eq]
  have e14 : (2 : Nat) ^ 14 = 16384 := by norm_num
  have e28 : (2 : Nat) ^ 28 = 268435456 := by norm_num
  rw [e14, e28] at *
  omega

/-- Witness for C8 at concrete in-range inputs. -/
theorem tileKey_raw_order_iff_yx_lex_witness :
    (9 < 2 ^ 14 ∧ 4 < 2 ^ 14 ∧ 2 < 2 ^ 14 ∧ 6 < 2 ^ 14) ∧
    (newTileKey 2 9 4 < newTileKey 2 2 6 ↔ (4 < 6 ∨ (4 = 6 ∧ 9 < 2))) :=
  ⟨by decide,
   tileKey_raw_order_iff_yx_lex 2 9 4 2 6 (by decide) (by decide) (by decide) (by decide)⟩

/-- C9: the encoder is total, with out-of-range inputs truncated by the
masking rather than rejected: `newTileKey level x y` always equals
`newTileKey (level % 8) (x % 2^14) (y % 2^14)`. -/
theorem newTileKey_total_masking (level x y : Nat) :
    newTileKey level x y = newTileKey (level % 8) (x % 2 ^ 14) (y % 2 ^ 14) := by
  rw [newTileKey_eq, newTileKey_eq]
  have e14 : (2 : Nat) ^ 14 = 16384 := by norm_num
  rw [e14]
  omega

/-! ### Public lookup entry point (latlong.go lines 29-31)

Go:
```
func LookupZoneName(lat, long float64) string {
  panic("TODO")
}
```
The body is a single unconditional panic, modelled as a result type that
distinguishes a normal return from a Go panic. -/

inductive GoResult (A : Type) where
  | ok : A → GoResult A
  | panicked : String → GoResult A
deriving DecidableEq

def LookupZoneName (lat long : Float) : GoResult String :=
  GoResult.panicked "TODO"

/-! ### Span quantizer (mono_painter_tmp.go)

`raster.Span` from github.com/golang/freetype/raster is
`struct { Y, X0, X1 int; Alpha uint32 }`; `MyMonochromePainter` carries the
pending run `y, x0, x1 int`.  `Paint` compacts the input slice in place,
which is value-faithfully modelled by returning the list of compacted
(flushed) spans; the calls it makes to the wrapped `Painter` are modelled as
the returned list of `(spans, done)` pairs. -/

structure Span where
  y : Int
  x0 : Int
  x1 : Int
  alpha : Nat
deriving DecidableEq

structure MonoState where
  y : Int
  x0 : Int
  x1 : Int
deriving DecidableEq

/-- The compaction loop of `Paint` (lines 16-27): spans with
`Alpha >= 0x8000` either extend the pending run (same row, touching) or
flush it and become the new pending run; other spans are dropped.  Returns
the final accumulator state and the flushed spans `ss[:j]`. -/
def paintCompact : MonoState → List Span → MonoState × List Span
  | m, [] => (m, [])
  | m, s :: rest =>
    if 0x8000 ≤ s.alpha then
      if m.y = s.y ∧ m.x1 = s.x0 then
        paintCompact ⟨m.y, m.x0, s.x1⟩ rest
      else
        let r := paintCompact ⟨s.y, s.x0, s.x1⟩ rest
        (r.1, Span.mk m.y m.x0 m.x1 0xffff :: r.2)
    else
      paintCompact m rest

/-- The span the accumulator flushes (`raster.Span{m.y, m.x0, m.x1, 0xffff}`). -/
def flushSpan (m : MonoState) : Span := ⟨m.y, m.x0, m.x1, 0xffff⟩

/-- Full `Paint` (lines 14-51).  The `j > len(ss)` arm is Go's
`panic("unreachable")`; `paintCompact` never emits more spans than it
consumes (`paintCompact_length_le` below), so the model's `else` arm is
exactly Go's `j == len(ss)` arm.  The `cap(ss)` distinction (reuse versus
allocate) is invisible at the value level: both arms pass `[finalSpan]`. -/
def paint (m : MonoState) (ss : List Span) (done : Bool) :
    MonoState × List (List Span × Bool) :=
  let r := paintCompact m ss
  if done then
    if r.2.length < ss.length then
      (⟨0, 0, 0⟩, [(r.2 ++ [flushSpan r.1], true)])
    else
      (⟨0, 0, 0⟩, [(r.2, false), ([flushSpan r.1], true)])
  else
    (r.1, [(r.2, false)])

/-- All spans forwarded to the wrapped painter, in delivery order. -/
def forwardedSpans (m : MonoState) (ss : List Span) (done : Bool) : List Span :=
  ((paint m ss done).2.map Prod.fst).flatten

/-- The compacted output never exceeds the input in length (Go's
`panic("unreachable")` arm `j > len(ss)` is indeed unreachable). -/
theorem paintCompact_length_le (m : MonoState) (ss : List Span) :
    (paintCompact m ss).2.length ≤ ss.length := by
  induction ss generalizing m with
  | nil => simp [paintCompact]
  | cons s rest ih =>
    by_cases hop : 0x8000 ≤ s.alpha
    · by_cases hc : m.y = s.y ∧ m.x1 = s.x0
      · simp only [paintCompact, if_pos hop, if_pos hc, List.length_cons]
        exact le_trans (ih _) (Nat.le_succ _)
      · simp only [paintCompact, if_pos hop, if_neg hc, List.length_cons]
        exact Nat.succ_le_succ (ih _)
    · simp only [paintCompact, if_neg hop, List.length_cons]
      exact le_trans (ih _) (Nat.le_succ _)

/-- Two spans "touch" when they are on the same row and the first run's end
is the second's start; `Paint` never hands two touching runs downstream in
a row (they would have been merged). -/
def noTouch (a b : Span) : Prop := ¬(a.y = b.y ∧ a.x1 = b.x0)

/-- Every span the compaction loop flushes is fully opaque. -/
theorem paintCompact_alpha (m : MonoState) (ss : List Span) :
    ∀ sp ∈ (paintCompact m ss).2, sp.alpha = 0xffff := by
  induction ss generalizing m with
  | nil => simp [paintCompact]
  | cons s rest ih =>
    by_cases hop : 0x8000 ≤ s.alpha
    · by_cases hc : m.y = s.y ∧ m.x1 = s.x0
      · simpa [paintCompact, hop, hc] using ih ⟨m.y, m.x0, s.x1⟩
      · intro sp hsp
        simp only [paintCompact, if_pos hop, if_neg hc, List.mem_cons] at hsp
        rcases hsp with h | h
        · rw [h]
        · exact ih _ sp h
    · simpa [paintCompact, hop] using ih m

/-- The first span delivered (pending flush included) always carries the
row and start of the accumulator state the batch began with: extending the
pending run only ever moves its end `x1`. -/
theorem paintCompact_head (m : MonoState) (ss : List Span) :
    ∃ z, ((paintCompact m ss).2 ++ [flushSpan (paintCompact m ss).1]).head? =
      some (Span.mk m.y m.x0 z 0xffff) := by
  induction ss generalizing m with
  | nil => exact ⟨m.x1, rfl⟩
  | cons s rest ih =>
    by_cases hop : 0x8000 ≤ s.alpha
    · by_cases hc : m.y = s.y ∧ m.x1 = s.x0
      · simp only [paintCompact, if_pos hop, if_pos hc]
        exact ih ⟨m.y, m.x0, s.x1⟩
      · simp only [paintCompact, if_pos hop, if_neg hc]
        exact ⟨m.x1, rfl⟩
    · simp only [paintCompact, if_neg hop]
      exact ih m

/-- No two consecutive delivered runs (pending flush included) touch: a
span is only flushed when the incoming span fails the merge test. -/
theorem paintCompact_chain (m : MonoState) (ss : List Span) :
    List.Chain' noTouch ((paintCompact m ss).2 ++ [flushSpan (paintCompact m ss).1]) := by
  induction ss generalizing m with
  | nil => simp [paintCompact]
  | cons s rest ih =>
    by_cases hop : 0x8000 ≤ s.alpha
    · by_cases hc : m.y = s.y ∧ m.x1 = s.x0
      · simp only [paintCompact, if_pos hop, if_pos hc]
        exact ih ⟨m.y, m.x0, s.x1⟩
      · simp only [paintCompact, if_pos hop, if_neg hc]
        rw [List.cons_append, List.chain'_cons']
        refine ⟨?_, ih ⟨s.y, s.x0, s.x1⟩⟩
        intro b hb
        obtain ⟨z, hz⟩ := paintCompact_head ⟨s.y, s.x0, s.x1⟩ rest
        rw [hz, Option.mem_some_iff] at hb
        subst hb
        exact fun hcontra => hc ⟨hcontra.1, hcontra.2⟩
    · simp only [paintCompact, if_neg hop]
      exact ih m

/-- Spans whose alpha quantizes to transparent are dropped entirely:
filtering them out of the input first changes nothing. -/
theorem paintCompact_filter (m : MonoState) (ss : List Span) :
    paintCompact m (ss.filter fun t => decide (0x8000 ≤ t.alpha)) = paintCompact m ss := by
  induction ss generalizing m with
  | nil => rfl
  | cons s rest ih =>
    by_cases hop : 0x8000 ≤ s.alpha
    · rw [List.filter_cons_of_pos (by simpa using hop)]
      by_cases hc : m.y = s.y ∧ m.x1 = s.x0
      · simp only [paintCompact, if_pos hop, if_pos hc]
        exact ih _
      · simp only [paintCompact, if_pos hop, if_neg hc]
        rw [ih]
    · rw [List.filter_cons_of_neg (by simpa using hop)]
      rw [show paintCompact m (s :: rest) = paintCompact m rest by
        simp only [paintCompact, if_neg hop]]
      exact ih m

/-- With `done = true` the spans delivered downstream are, in order, the
compacted spans followed by the flushed pending run, regardless of which
of the two `Paint` arms ran. -/
theorem forwardedSpans_done (m : MonoState) (ss : List Span) :
    forwardedSpans m ss true =
      (paintCompact m ss).2 ++ [flushSpan (paintCompact m ss).1] := by
  unfold forwardedSpans paint
  by_cases h : (paintCompact m ss).2.length < ss.length
  · simp [h]
  · simp [h]

/-- With `done = false` only the compacted spans are delivered. -/
theorem forwardedSpans_not_done (m : MonoState) (ss : List Span) :
    forwardedSpans m ss false = (paintCompact m ss).2 := by
  simp [forwardedSpans, paint]

/-- If the first opaque-quantizing input span does not extend the pending
run, the first delivered span is exactly the flush of the initial
accumulator state. -/
theorem paintCompact_first_flush (m : MonoState) (ss : List Span)
    (h : ∀ s₀, (ss.filter fun t => decide (0x8000 ≤ t.alpha)).head? = some s₀ →
      ¬(m.y = s₀.y ∧ m.x1 = s₀.x0)) :
    ((paintCompact m ss).2 ++ [flushSpan (paintCompact m ss).1]).head? =
      some (flushSpan m) := by
  induction ss with
  | nil => rfl
  | cons s rest ih =>
    by_cases hop : 0x8000 ≤ s.alpha
    · have hs : ¬(m.y = s.y ∧ m.x1 = s.x0) :=
        h s (by rw [List.filter_cons_of_pos (by simpa using hop)]; rfl)
      simp only [paintCompact, if_pos hop, if_neg hs]
      rfl
    · simp only [paintCompact, if_neg hop]
      refine ih fun s₀ hs₀ => h s₀ ?_
      rwa [List.filter_cons_of_neg (by simpa using hop)]

/-! ### Claim C1: the public lookup operation -/

/-- C1 (code_bug evidence): `LookupZoneName` does not return a
(regionName, found) outcome at all; at any in-range coordinate, for
example (0, 0), it aborts by panicking "TODO", contradicting both the
claim and the function's own doc comment. -/
theorem lookupZoneName_panics :
    LookupZoneName 0 0 = GoResult.panicked "TODO" := rfl

/-! ### Claims C6, C7, C10: the span quantizer -/

/-- C6: the quantizer collapses every span with `Alpha >= 0x8000` to fully
opaque (every flushed span carries alpha 0xffff), drops sub-threshold
spans entirely (pre-filtering them away changes nothing), merges a
touching same-row opaque span into the pending run instead of emitting,
and the delivered sequence (final pending flush included) is minimal: no
two adjacent delivered runs touch. -/
theorem spanQuantizer_correct (m : MonoState) (ss : List Span) (s : Span)
    (rest : List Span) (hop : 0x8000 ≤ s.alpha) (hrow : m.y = s.y)
    (htouch : m.x1 = s.x0) :
    paintCompact m (ss.filter fun t => decide (0x8000 ≤ t.alpha)) = paintCompact m ss ∧
    (∀ sp ∈ (paintCompact m ss).2, sp.alpha = 0xffff) ∧
    paintCompact m (s :: rest) = paintCompact ⟨m.y, m.x0, s.x1⟩ rest ∧
    List.Chain' noTouch ((paintCompact m ss).2 ++ [flushSpan (paintCompact m ss).1]) :=
  ⟨paintCompact_filter m ss, paintCompact_alpha m ss,
   by simp only [paintCompact, if_pos hop, if_pos (And.intro hrow htouch)],
   paintCompact_chain m ss⟩

/-- Witness for C6 at a concrete state and spans. -/
theorem spanQuantizer_correct_witness :
    (0x8000 ≤ (Span.mk 0 0 3 0xffff).alpha ∧
     (MonoState.mk 0 0 0).y = (Span.mk 0 0 3 0xffff).y ∧
     (MonoState.mk 0 0 0).x1 = (Span.mk 0 0 3 0xffff).x0) ∧
    (paintCompact ⟨0, 0, 0⟩
        ([Span.mk 0 5 7 0xffff].filter fun t => decide (0x8000 ≤ t.alpha)) =
        paintCompact ⟨0, 0, 0⟩ [Span.mk 0 5 7 0xffff] ∧
     (∀ sp ∈ (paintCompact ⟨0, 0, 0⟩ [Span.mk 0 5 7 0xffff]).2, sp.alpha = 0xffff) ∧
     paintCompact ⟨0, 0, 0⟩ [Span.mk 0 0 3 0xffff] = paintCompact ⟨0, 0, 3⟩ [] ∧
     List.Chain' noTouch ((paintCompact ⟨0, 0, 0⟩ [Span.mk 0 5 7 0xffff]).2 ++
       [flushSpan (paintCompact ⟨0, 0, 0⟩ [Span.mk 0 5 7 0xffff]).1])) :=
  ⟨by decide,
   spanQuantizer_correct ⟨0, 0, 0⟩ [Span.mk 0 5 7 0xffff] (Span.mk 0 0 3 0xffff) []
     (by decide) (by decide) (by decide)⟩

/-- C7: when the flush (`done = true`) arrives and the compacted output
fills the input slice exactly (`j == len(ss)`), the final pending run is
still delivered in a second, separate call — first the compacted slice
with done=false, then the pending run alone with done=true — and the
accumulator is reset to the zero state. -/
theorem paint_flush_exact_fit (m : MonoState) (ss : List Span)
    (h : (paintCompact m ss).2.length = ss.length) :
    paint m ss true =
      (⟨0, 0, 0⟩, [((paintCompact m ss).2, false),
        ([flushSpan (paintCompact m ss).1], true)]) := by
  simp [paint, h]

/-- Witness for C7: an empty batch flushed on a fresh painter lands
exactly on the `j == len(ss)` boundary. -/
theorem paint_flush_exact_fit_witness :
    (paintCompact ⟨0, 0, 0⟩ ([] : List Span)).2.length = ([] : List Span).length ∧
    paint ⟨0, 0, 0⟩ ([] : List Span) true =
      (⟨0, 0, 0⟩, [((paintCompact ⟨0, 0, 0⟩ ([] : List Span)).2, false),
        ([flushSpan (paintCompact ⟨0, 0, 0⟩ ([] : List Span)).1], true)]) :=
  ⟨rfl, paint_flush_exact_fit ⟨0, 0, 0⟩ [] rfl⟩

/-- C10 counterexample: on a freshly reset painter, when the first opaque
input span extends the zero state (row 0 starting at x = 0), the first
flushed run is NOT the zero-state span {Y:0, X0:0, X1:0}: flushing
`[{0,0,5,0xffff}]` delivers {0,0,5} as the first and only span. -/
theorem firstFlush_zero_span_cex :
    forwardedSpans ⟨0, 0, 0⟩ [Span.mk 0 0 5 0xffff] true = [Span.mk 0 0 5 0xffff] ∧
    Span.mk 0 0 5 0xffff ≠ Span.mk 0 0 0 0xffff := by decide

/-- C10 (amended): every span `Paint` forwards to the wrapped painter has
alpha exactly 0xffff, unconditionally; and on a freshly reset painter,
provided the first opaque-quantizing input span does not extend the zero
state (its row and start are not both 0), the first flushed run is the
zero-state span {Y:0, X0:0, X1:0}, emitted rather than suppressed. -/
theorem forwarded_alpha_and_zero_flush (m : MonoState) (ss : List Span) (done : Bool) :
    (∀ sp ∈ forwardedSpans m ss done, sp.alpha = 0xffff) ∧
    ((∀ s₀, (ss.filter fun t => decide (0x8000 ≤ t.alpha)).head? = some s₀ →
        ¬(s₀.y = 0 ∧ s₀.x0 = 0)) →
      (forwardedSpans ⟨0, 0, 0⟩ ss true).head? = some (Span.mk 0 0 0 0xffff)) := by
  constructor
  · cases done with
    | false =>
      rw [forwardedSpans_not_done]
      exact paintCompact_alpha m ss
    | true =>
      rw [forwardedSpans_done]
      intro sp hsp
      rcases List.mem_append.mp hsp with hmem | hmem
      · exact paintCompact_alpha m ss sp hmem
      · rw [List.mem_singleton.mp hmem]; rfl
  · intro h
    rw [forwardedSpans_done]
    exact paintCompact_first_flush ⟨0, 0, 0⟩ ss fun s₀ hs₀ => by
      intro hcontra
      exact h s₀ hs₀ ⟨hcontra.1.symm, hcontra.2.symm⟩

/-- Witness for C10 (amended): the alpha part taken directly, and the
zero-flush part with its proviso discharged at a concrete input whose
first opaque span sits on row 3. -/
theorem forwarded_alpha_and_zero_flush_witness :
    (∀ sp ∈ forwardedSpans ⟨1, 2, 3⟩ [Span.mk 3 1 4 0xffff] false, sp.alpha = 0xffff) ∧
    (∀ s₀, ([Span.mk 3 1 4 0xffff].filter fun t => decide (0x8000 ≤ t.alpha)).head? =
        some s₀ → ¬(s₀.y = 0 ∧ s₀.x0 = 0)) ∧
    (forwardedSpans ⟨0, 0, 0⟩ [Span.mk 3 1 4 0xffff] true).head? =
      some (Span.mk 0 0 0 0xffff) := by
  have h : ∀ s₀, ([Span.mk 3 1 4 0xffff].filter
      fun t => decide (0x8000 ≤ t.alpha)).head? = some s₀ → ¬(s₀.y = 0 ∧ s₀.x0 = 0) := by
    intro s₀ hs₀
    have : s₀ = Span.mk 3 1 4 0xffff := by
      simpa using hs₀.symm
    rw [this]
    decide
  exact ⟨(forwarded_alpha_and_zero_flush ⟨1, 2, 3⟩ [Span.mk 3 1 4 0xffff] false).1, h,
    (forwarded_alpha_and_zero_flush ⟨1, 2, 3⟩ [Span.mk 3 1 4 0xffff] false).2 h⟩

/-! ### Hierarchical tile classifier (gen_test.go, TestGenerate lines 200-296)

The generation pass iterates `sizeShift` over `5,4,3,2,1,0`
(`size := 8 << sizeShift`), and for each level walks tiles row-major
(`yt` outer, `xt` inner, ranges `height/size` and `width/size`).  For one
tile it scans all pixels of its rectangle:
  * alpha 0 (transparent) pixels are skipped,
  * an `alphaErased` (22) pixel aborts the whole tile (`continue XTile`),
    so a tile is skipped exactly when some pixel of its rectangle carries
    the erased mark,
  * alpha 255 pixels contribute their RGB color to the set `s`.
If `len(s) == 1` the tile key `newTileKey(sizeShift, uint16(xt), uint16(yt))`
is appended to `solidTiles[sizeShift]`; if `len(s) <= 1` the tile's anchor
pixels (both offsets from the tile origin divisible by 8) get their alpha
overwritten with `alphaErased`.

The model: a pixel is `Option Nat` (none = transparent, some c = an opaque
color c; the input raster holds only alphas 0 and 255 — any other value is
Go's `panic("Unexpected alpha value")`), and the erased marks live in a
separate boolean grid, since `alphaErased` is distinct from 0 and 255 and
shadows the pixel for every later read.  The `zoneOfColor` / `solidTile`
zone-name bookkeeping and the debug-image side channel do not affect which
keys are recorded and are omitted; the dead `panic("no color found")`
branch (colors always have A=255, never the zero RGBA) is omitted too. -/

structure GenImage where
  width : Nat
  height : Nat
  pix : Nat → Nat → Option Nat

structure GenState where
  erased : Nat → Nat → Bool
  solidTiles : Nat → List Nat

/-- Tile side length in pixels: `size := 8 << sizeShift`. -/
def tileSide (ss : Nat) : Nat := 8 <<< ss

/-- Does the predicate hold somewhere in the w-by-h rectangle at (x0,y0)? -/
def anyInRect (p : Nat → Nat → Bool) (x0 y0 w h : Nat) : Bool :=
  (List.range h).any fun dy => (List.range w).any fun dx => p (x0 + dx) (y0 + dy)

/-- The distinct opaque colors of a tile, in row-major first-seen order
(the Go code accumulates them in a set; only the count is ever used). -/
def tileColors (im : GenImage) (x0 y0 size : Nat) : List Nat :=
  (List.range size).foldl (fun acc dy =>
    (List.range size).foldl (fun acc2 dx =>
      match im.pix (x0 + dx) (y0 + dy) with
      | none => acc2
      | some c => if c ∈ acc2 then acc2 else acc2 ++ [c]) acc) []

/-- Mark the anchor pixels of the tile as erased: the double loop
`for y := y0; y < y1; y += 8 { for x := x0; x < x1; x += 8 { ... } }`
touches exactly the in-rectangle pixels whose offsets are multiples of 8. -/
def eraseTile (er : Nat → Nat → Bool) (x0 y0 size : Nat) : Nat → Nat → Bool :=
  fun x y => er x y ||
    (decide (x0 ≤ x) && decide (x < x0 + size) && decide ((x - x0) % 8 = 0) &&
     decide (y0 ≤ y) && decide (y < y0 + size) && decide ((y - y0) % 8 = 0))

/-- One tile of one level's pass: skip if any pixel is erased; otherwise
record the key when exactly one color was seen and erase the anchors when
at most one color was seen. -/
def processTile (im : GenImage) (ss xt yt : Nat) (st : GenState) : GenState :=
  let size := tileSide ss
  let x0 := xt * size
  let y0 := yt * size
  if anyInRect st.erased x0 y0 size size then st
  else
    let cs := tileColors im x0 y0 size
    let st1 := if cs.length = 1 then
        { st with solidTiles := fun l =>
            if l = ss then st.solidTiles l ++ [newTileKey ss (xt % 65536) (yt % 65536)]
            else st.solidTiles l }
      else st
    if cs.length ≤ 1 then { st1 with erased := eraseTile st1.erased x0 y0 size }
    else st1

/-- One row of tiles (`for xt := 0; xt < xtiles; xt++`). -/
def processRow (im : GenImage) (ss yt : Nat) (st : GenState) : GenState :=
  (List.range (im.width / tileSide ss)).foldl
    (fun s xt => processTile im ss xt yt s) st

/-- One level's pass (`for yt := 0; yt < ytiles; yt++`). -/
def processLevel (im : GenImage) (st : GenState) (ss : Nat) : GenState :=
  (List.range (im.height / tileSide ss)).foldl
    (fun s yt => processRow im ss yt s) st

/-- Initial state: nothing erased (input alphas are only 0 and 255),
nothing recorded. -/
def initGenState : GenState := ⟨fun _ _ => false, fun _ => []⟩

/-- The whole generation pass over `sizeShift` = 5,4,3,2,1,0. -/
def generate (im : GenImage) : GenState :=
  [5, 4, 3, 2, 1, 0].foldl (processLevel im) initGenState

/-! ### Geometry of tiles and the classifier's invariants -/

/-- (px,py) lies in the size-by-size square with origin (x0,y0). -/
def inRect (x0 y0 size px py : Nat) : Prop :=
  x0 ≤ px ∧ px < x0 + size ∧ y0 ≤ py ∧ py < y0 + size

theorem tileSide_eq (ss : Nat) : tileSide ss = 8 * 2 ^ ss := by
  unfold tileSide
  rw [Nat.shiftLeft_eq]

theorem tileSide_pos (ss : Nat) : 0 < tileSide ss := by
  rw [tileSide_eq]
  positivity

/-- Aligned grids nest: if the side of the coarse grid is the fine side
times 2^d and a fine cell and a coarse cell share a point, the fine cell
is contained in the coarse cell. -/
theorem interval_nest {s k a b p : Nat}
    (h1 : a * s ≤ p) (h2 : p < (a + 1) * s)
    (h3 : b * (s * k) ≤ p) (h4 : p < (b + 1) * (s * k)) :
    b * (s * k) ≤ a * s ∧ (a + 1) * s ≤ (b + 1) * (s * k) := by
  rcases Nat.eq_zero_or_pos s with hs | hs
  · subst hs; omega
  have ha : a < (b + 1) * k := by
    have hlt : a * s < ((b + 1) * k) * s := by
      calc a * s ≤ p := h1
        _ < (b + 1) * (s * k) := h4
        _ = ((b + 1) * k) * s := by ring
    exact Nat.lt_of_mul_lt_mul_right hlt
  have hb : b * k ≤ a := by
    have hlt : (b * k) * s < (a + 1) * s := by
      calc (b * k) * s = b * (s * k) := by ring
        _ ≤ p := h3
        _ < (a + 1) * s := h2
    have := Nat.lt_of_mul_lt_mul_right hlt
    omega
  constructor
  · calc b * (s * k) = (b * k) * s := by ring
      _ ≤ a * s := Nat.mul_le_mul_right s hb
  · calc (a + 1) * s ≤ ((b + 1) * k) * s := Nat.mul_le_mul_right s ha
      _ = (b + 1) * (s * k) := by ring

theorem tileSide_nest {L L' : Nat} (h : L ≤ L') :
    tileSide L' = tileSide L * 2 ^ (L' - L) := by
  rw [tileSide_eq, tileSide_eq, Nat.mul_assoc, ← pow_add]
  congr 2
  omega

/-- All anchor pixels (offsets from the tile origin divisible by 8) of the
tile a recorded key decodes to are erased. -/
def keyAnchorsErased (er : Nat → Nat → Bool) (L tk : Nat) : Prop :=
  ∀ px py,
    inRect (tileKey.x tk * tileSide L) (tileKey.y tk * tileSide L) (tileSide L) px py →
    (px - tileKey.x tk * tileSide L) % 8 = 0 →
    (py - tileKey.y tk * tileSide L) % 8 = 0 →
    er px py = true

/-- Classifier invariant, part A: every recorded key sits at its list's
level, the level is in range, and its tile's anchors are all erased. -/
def InvA (st : GenState) : Prop :=
  ∀ L, ∀ tk ∈ st.solidTiles L, L ≤ 5 ∧ tileKey.size tk = L ∧
    keyAnchorsErased st.erased L tk

/-- Classifier invariant, part B: tiles recorded at different levels have
disjoint pixel rectangles. -/
def InvB (st : GenState) : Prop :=
  ∀ L L', L ≠ L' → ∀ tk ∈ st.solidTiles L, ∀ tk' ∈ st.solidTiles L',
    ∀ px py,
      ¬(inRect (tileKey.x tk * tileSide L) (tileKey.y tk * tileSide L)
          (tileSide L) px py ∧
        inRect (tileKey.x tk' * tileSide L') (tileKey.y tk' * tileSide L')
          (tileSide L') px py)

/-- A false `anyInRect` means no pixel of the square satisfies the
predicate. -/
theorem anyInRect_false {p : Nat → Nat → Bool} {x0 y0 s px py : Nat}
    (hfalse : anyInRect p x0 y0 s s = false) (hin : inRect x0 y0 s px py) :
    p px py = false := by
  obtain ⟨hx1, hx2, hy1, hy2⟩ := hin
  rw [anyInRect, List.any_eq_false] at hfalse
  have h1 := hfalse (py - y0) (List.mem_range.mpr (by omega))
  rw [Bool.not_eq_true, List.any_eq_false] at h1
  have h2 := h1 (px - x0) (List.mem_range.mpr (by omega))
  rw [Bool.not_eq_true] at h2
  have e1 : x0 + (px - x0) = px := by omega
  have e2 : y0 + (py - y0) = py := by omega
  rwa [e1, e2] at h2

/-- Erasure only adds marks. -/
theorem eraseTile_mono {er : Nat → Nat → Bool} {x0 y0 size x y : Nat}
    (h : er x y = true) : eraseTile er x0 y0 size x y = true := by
  simp [eraseTile, h]

/-- Erasure marks every anchor of its tile. -/
theorem eraseTile_anchor {er : Nat → Nat → Bool} {x0 y0 size x y : Nat}
    (hin : inRect x0 y0 size x y) (hx8 : (x - x0) % 8 = 0) (hy8 : (y - y0) % 8 = 0) :
    eraseTile er x0 y0 size x y = true := by
  obtain ⟨h1, h2, h3, h4⟩ := hin
  simp [eraseTile, h1, h2, h3, h4, hx8, hy8]

/-- Levels other than the one being processed are untouched by a tile step. -/
theorem processTile_solid_ne (im : GenImage) (ss xt yt : Nat) (st : GenState)
    {L : Nat} (h : L ≠ ss) :
    (processTile im ss xt yt st).solidTiles L = st.solidTiles L := by
  by_cases hskip : anyInRect st.erased (xt * tileSide ss) (yt * tileSide ss)
      (tileSide ss) (tileSide ss) = true
  · simp [processTile, hskip]
  · rw [Bool.not_eq_true] at hskip
    by_cases h1 : (tileColors im (xt * tileSide ss) (yt * tileSide ss)
        (tileSide ss)).length = 1
    · simp [processTile, hskip, h1, h]
    · by_cases h2 : (tileColors im (xt * tileSide ss) (yt * tileSide ss)
          (tileSide ss)).length ≤ 1
      · simp [processTile, hskip, h1, h2]
      · simp [processTile, hskip, h1, h2]

/-- The recorded list at the processed level: a key is appended exactly
when the tile is not skipped and shows exactly one distinct color. -/
theorem processTile_solid_eq (im : GenImage) (ss xt yt : Nat) (st : GenState) :
    (processTile im ss xt yt st).solidTiles ss =
      st.solidTiles ss ++
        (if anyInRect st.erased (xt * tileSide ss) (yt * tileSide ss)
              (tileSide ss) (tileSide ss) = false ∧
            (tileColors im (xt * tileSide ss) (yt * tileSide ss)
              (tileSide ss)).length = 1
         then [newTileKey ss (xt % 65536) (yt % 65536)] else []) := by
  by_cases hskip : anyInRect st.erased (xt * tileSide ss) (yt * tileSide ss)
      (tileSide ss) (tileSide ss) = true
  · simp [processTile, hskip]
  · rw [Bool.not_eq_true] at hskip
    by_cases h1 : (tileColors im (xt * tileSide ss) (yt * tileSide ss)
        (tileSide ss)).length = 1
    · simp [processTile, hskip, h1]
    · by_cases h2 : (tileColors im (xt * tileSide ss) (yt * tileSide ss)
          (tileSide ss)).length ≤ 1
      · simp [processTile, hskip, h1, h2]
      · simp [processTile, hskip, h1, h2]

/-- 1D nesting of aligned tile cells across two levels. -/
theorem cell_nest {L L' a b p : Nat} (h : L < L')
    (h1 : a * tileSide L ≤ p) (h2 : p < a * tileSide L + tileSide L)
    (h3 : b * tileSide L' ≤ p) (h4 : p < b * tileSide L' + tileSide L') :
    b * tileSide L' ≤ a * tileSide L ∧
    a * tileSide L + tileSide L ≤ b * tileSide L' + tileSide L' := by
  have hs : tileSide L' = tileSide L * 2 ^ (L' - L) := tileSide_nest (le_of_lt h)
  have h2' : p < (a + 1) * tileSide L := by rw [Nat.succ_mul]; exact h2
  have h4' : p < (b + 1) * (tileSide L * 2 ^ (L' - L)) := by
    rw [Nat.succ_mul, ← hs]; exact h4
  have h3' : b * (tileSide L * 2 ^ (L' - L)) ≤ p := by rw [← hs]; exact h3
  obtain ⟨c1, c2⟩ := interval_nest h1 h2' h3' h4'
  rw [← hs] at c1 c2
  rw [Nat.succ_mul, Nat.succ_mul] at c2
  exact ⟨c1, c2⟩

/-- Tile origins are multiples of 8. -/
theorem tileSide_mul_mod8 (a L : Nat) : (a * tileSide L) % 8 = 0 := by
  rw [tileSide_eq]
  have h : a * (8 * 2 ^ L) = 8 * (a * 2 ^ L) := by ring
  rw [h]
  exact Nat.mul_mod_right 8 _

/-- The tile currently being classified (its skip scan found no erased
pixel) cannot overlap any tile previously recorded at a different level:
nesting of the aligned grids puts one tile inside the other, and part A of
the invariant plants an erased anchor inside the scanned rectangle either
way. -/
theorem recorded_tile_no_overlap (st : GenState) (hA : InvA st)
    {ss xt yt : Nat}
    (hskip : anyInRect st.erased (xt * tileSide ss) (yt * tileSide ss)
      (tileSide ss) (tileSide ss) = false)
    {L' tk' : Nat} (hmem : tk' ∈ st.solidTiles L') (hne : L' ≠ ss)
    (px py : Nat)
    (h1 : inRect (xt * tileSide ss) (yt * tileSide ss) (tileSide ss) px py)
    (h2 : inRect (tileKey.x tk' * tileSide L') (tileKey.y tk' * tileSide L')
      (tileSide L') px py) : False := by
  obtain ⟨hL5, hsz', hanch'⟩ := hA L' tk' hmem
  obtain ⟨ha1, ha2, ha3, ha4⟩ := h1
  obtain ⟨hb1, hb2, hb3, hb4⟩ := h2
  have hspos := tileSide_pos ss
  have hspos' := tileSide_pos L'
  rcases Nat.lt_or_ge L' ss with hlt | hge
  · -- the recorded tile is finer: it sits inside the scanned tile, and its
    -- own origin is an erased anchor of itself
    obtain ⟨hcx1, hcx2⟩ := cell_nest hlt hb1 hb2 ha1 ha2
    obtain ⟨hcy1, hcy2⟩ := cell_nest hlt hb3 hb4 ha3 ha4
    have horig : st.erased (tileKey.x tk' * tileSide L')
        (tileKey.y tk' * tileSide L') = true := by
      refine hanch' _ _ ⟨le_refl _, by omega, le_refl _, by omega⟩ ?_ ?_
      · rw [Nat.sub_self]
      · rw [Nat.sub_self]
    have hin : inRect (xt * tileSide ss) (yt * tileSide ss) (tileSide ss)
        (tileKey.x tk' * tileSide L') (tileKey.y tk' * tileSide L') :=
      ⟨hcx1, by omega, hcy1, by omega⟩
    have hfalse := anyInRect_false hskip hin
    rw [horig] at hfalse
    exact Bool.noConfusion hfalse
  · -- the recorded tile is coarser: the scanned tile sits inside it, and
    -- the scanned tile's origin is an erased anchor of the recorded tile
    have hlt' : ss < L' := lt_of_le_of_ne hge (Ne.symm hne)
    obtain ⟨hcx1, hcx2⟩ := cell_nest hlt' ha1 ha2 hb1 hb2
    obtain ⟨hcy1, hcy2⟩ := cell_nest hlt' ha3 ha4 hb3 hb4
    have hm1 := tileSide_mul_mod8 xt ss
    have hm2 := tileSide_mul_mod8 (tileKey.x tk') L'
    have hm3 := tileSide_mul_mod8 yt ss
    have hm4 := tileSide_mul_mod8 (tileKey.y tk') L'
    have horig : st.erased (xt * tileSide ss) (yt * tileSide ss) = true :=
      hanch' _ _ ⟨hcx1, by omega, hcy1, by omega⟩ (by omega) (by omega)
    have hin : inRect (xt * tileSide ss) (yt * tileSide ss) (tileSide ss)
        (xt * tileSide ss) (yt * tileSide ss) :=
      ⟨le_refl _, by omega, le_refl _, by omega⟩
    have hfalse := anyInRect_false hskip hin
    rw [horig] at hfalse
    exact Bool.noConfusion hfalse

/-- Membership in the recorded lists after a tile step: either the key was
already there, or it is the freshly appended key of a non-skipped
one-color tile at the processed level. -/
theorem processTile_solid_append (im : GenImage) (ss xt yt : Nat) (st : GenState)
    (L tk : Nat) (hmem : tk ∈ (processTile im ss xt yt st).solidTiles L) :
    tk ∈ st.solidTiles L ∨
    (L = ss ∧ tk = newTileKey ss (xt % 65536) (yt % 65536) ∧
      anyInRect st.erased (xt * tileSide ss) (yt * tileSide ss)
        (tileSide ss) (tileSide ss) = false ∧
      (tileColors im (xt * tileSide ss) (yt * tileSide ss)
        (tileSide ss)).length = 1) := by
  by_cases hL : L = ss
  · subst hL
    rw [processTile_solid_eq] at hmem
    rcases List.mem_append.mp hmem with hold | hnew
    · exact Or.inl hold
    · by_cases hc : anyInRect st.erased (xt * tileSide L) (yt * tileSide L)
          (tileSide L) (tileSide L) = false ∧
          (tileColors im (xt * tileSide L) (yt * tileSide L)
            (tileSide L)).length = 1
      · rw [if_pos hc] at hnew
        exact Or.inr ⟨rfl, List.mem_singleton.mp hnew, hc.1, hc.2⟩
      · rw [if_neg hc] at hnew
        exact absurd hnew (List.not_mem_nil tk)
  · rw [processTile_solid_ne im ss xt yt st hL] at hmem
    exact Or.inl hmem

/-- A tile step never clears an erasure mark. -/
theorem processTile_erased_mono (im : GenImage) (ss xt yt : Nat) (st : GenState)
    {x y : Nat} (h : st.erased x y = true) :
    (processTile im ss xt yt st).erased x y = true := by
  by_cases hskip : anyInRect st.erased (xt * tileSide ss) (yt * tileSide ss)
      (tileSide ss) (tileSide ss) = true
  · simpa [processTile, hskip] using h
  · rw [Bool.not_eq_true] at hskip
    by_cases h1 : (tileColors im (xt * tileSide ss) (yt * tileSide ss)
        (tileSide ss)).length = 1
    · simp only [processTile, hskip, h1]
      simp only [Bool.false_eq_true, if_false, if_pos h1,
        if_pos (le_of_eq h1)]
      exact eraseTile_mono h
    · by_cases h2 : (tileColors im (xt * tileSide ss) (yt * tileSide ss)
          (tileSide ss)).length ≤ 1
      · simp only [processTile, hskip, Bool.false_eq_true, if_false,
          if_neg h1, if_pos h2]
        exact eraseTile_mono h
      · simpa [processTile, hskip, h1, h2] using h

/-- After recording a one-color tile, the tile's anchors are erased. -/
theorem processTile_erased_uniform (im : GenImage) (ss xt yt : Nat) (st : GenState)
    (hskip : anyInRect st.erased (xt * tileSide ss) (yt * tileSide ss)
      (tileSide ss) (tileSide ss) = false)
    (hlen : (tileColors im (xt * tileSide ss) (yt * tileSide ss)
      (tileSide ss)).length ≤ 1) :
    (processTile im ss xt yt st).erased =
      eraseTile st.erased (xt * tileSide ss) (yt * tileSide ss) (tileSide ss) := by
  by_cases h1 : (tileColors im (xt * tileSide ss) (yt * tileSide ss)
      (tileSide ss)).length = 1
  · simp only [processTile, hskip, Bool.false_eq_true, if_false, if_pos h1,
      if_pos hlen]
  · simp only [processTile, hskip, Bool.false_eq_true, if_false, if_neg h1,
      if_pos hlen]

/-- One tile step preserves both classifier invariants. -/
theorem processTile_inv (im : GenImage) (ss xt yt : Nat) (st : GenState)
    (hss : ss ≤ 5) (hxt : xt < 2 ^ 14) (hyt : yt < 2 ^ 14)
    (hA : InvA st) (hB : InvB st) :
    InvA (processTile im ss xt yt st) ∧ InvB (processTile im ss xt yt st) := by
  have hxe : xt % 65536 = xt := Nat.mod_eq_of_lt (by omega)
  have hye : yt % 65536 = yt := Nat.mod_eq_of_lt (by omega)
  constructor
  · intro L tk hmem
    rcases processTile_solid_append im ss xt yt st L tk hmem with hold | hnew
    · obtain ⟨hL5, hsz, hanch⟩ := hA L tk hold
      exact ⟨hL5, hsz, fun px py hin h8x h8y =>
        processTile_erased_mono im ss xt yt st (hanch px py hin h8x h8y)⟩
    · obtain ⟨hLss, htk, hskip, hlen⟩ := hnew
      subst hLss
      obtain ⟨dsz, dx, dy⟩ := @decode_newTileKey L xt yt
        (by omega) hxt hyt
      rw [hxe, hye] at htk
      subst htk
      refine ⟨hss, dsz, ?_⟩
      intro px py hin h8x h8y
      rw [dx] at hin h8x
      rw [dy] at hin h8y
      rw [processTile_erased_uniform im L xt yt st hskip (le_of_eq hlen)]
      exact eraseTile_anchor hin h8x h8y
  · intro L L' hne tk hm tk' hm' px py hcontra
    obtain ⟨hin1, hin2⟩ := hcontra
    rcases processTile_solid_append im ss xt yt st L tk hm with hold | hnew
    · rcases processTile_solid_append im ss xt yt st L' tk' hm' with hold' | hnew'
      · exact hB L L' hne tk hold tk' hold' px py ⟨hin1, hin2⟩
      · obtain ⟨hLss', htk', hskip', hlen'⟩ := hnew'
        subst hLss'
        obtain ⟨dsz, dx, dy⟩ := @decode_newTileKey L' xt yt
          (by omega) hxt hyt
        rw [hxe, hye] at htk'
        subst htk'
        rw [dx] at hin2
        rw [dy] at hin2
        exact recorded_tile_no_overlap st hA hskip' hold hne px py hin2 hin1
    · obtain ⟨hLss, htk, hskip, hlen⟩ := hnew
      subst hLss
      rcases processTile_solid_append im L xt yt st L' tk' hm' with hold' | hnew'
      · obtain ⟨dsz, dx, dy⟩ := @decode_newTileKey L xt yt
          (by omega) hxt hyt
        rw [hxe, hye] at htk
        subst htk
        rw [dx] at hin1
        rw [dy] at hin1
        exact recorded_tile_no_overlap st hA hskip hold' (Ne.symm hne) px py hin1 hin2
      · obtain ⟨hLss', _, _, _⟩ := hnew'
        exact hne hLss'.symm

/-- Fold preservation of the invariants along a list of tile columns. -/
theorem foldTiles_inv (im : GenImage) (ss yt : Nat) (hss : ss ≤ 5)
    (hyt : yt < 2 ^ 14) (l : List Nat) (hl : ∀ x ∈ l, x < 2 ^ 14) :
    ∀ st : GenState, InvA st → InvB st →
      InvA (l.foldl (fun s xt => processTile im ss xt yt s) st) ∧
      InvB (l.foldl (fun s xt => processTile im ss xt yt s) st) := by
  induction l with
  | nil => exact fun st hA hB => ⟨hA, hB⟩
  | cons x xs ih =>
    intro st hA hB
    have hx := hl x (List.mem_cons_self x xs)
    obtain ⟨hA1, hB1⟩ := processTile_inv im ss x yt st hss hx hyt hA hB
    exact ih (fun z hz => hl z (List.mem_cons_of_mem x hz)) _ hA1 hB1

/-- The number of tiles along either axis is at most 2^14 when the image
dimension is at most 2^17 (the real raster is 11520 x 5760). -/
theorem tiles_le (d ss : Nat) (hd : d ≤ 2 ^ 17) : d / tileSide ss ≤ 2 ^ 14 := by
  have h8 : (8 : Nat) ≤ tileSide ss := by
    rw [tileSide_eq]
    have : (1 : Nat) ≤ 2 ^ ss := Nat.one_le_two_pow
    omega
  calc d / tileSide ss ≤ d / 8 := Nat.div_le_div_left h8 (by norm_num)
    _ ≤ 2 ^ 17 / 8 := Nat.div_le_div_right hd
    _ = 2 ^ 14 := by norm_num

/-- A row pass preserves both invariants. -/
theorem processRow_inv (im : GenImage) (ss yt : Nat) (st : GenState)
    (hss : ss ≤ 5) (hyt : yt < 2 ^ 14) (hw : im.width ≤ 2 ^ 17)
    (hA : InvA st) (hB : InvB st) :
    InvA (processRow im ss yt st) ∧ InvB (processRow im ss yt st) := by
  refine foldTiles_inv im ss yt hss hyt _ ?_ st hA hB
  intro x hx
  have := List.mem_range.mp hx
  have := tiles_le im.width ss hw
  omega

/-- Fold preservation of the invariants along a list of tile rows. -/
theorem foldRows_inv (im : GenImage) (ss : Nat) (hss : ss ≤ 5)
    (hw : im.width ≤ 2 ^ 17) (l : List Nat) (hl : ∀ y ∈ l, y < 2 ^ 14) :
    ∀ st : GenState, InvA st → InvB st →
      InvA (l.foldl (fun s yt => processRow im ss yt s) st) ∧
      InvB (l.foldl (fun s yt => processRow im ss yt s) st) := by
  induction l with
  | nil => exact fun st hA hB => ⟨hA, hB⟩
  | cons y ys ih =>
    intro st hA hB
    have hy := hl y (List.mem_cons_self y ys)
    obtain ⟨hA1, hB1⟩ := processRow_inv im ss y st hss hy hw hA hB
    exact ih (fun z hz => hl z (List.mem_cons_of_mem y hz)) _ hA1 hB1

/-- A level pass preserves both invariants. -/
theorem processLevel_inv (im : GenImage) (st : GenState) (ss : Nat)
    (hss : ss ≤ 5) (hw : im.width ≤ 2 ^ 17) (hh : im.height ≤ 2 ^ 17)
    (hA : InvA st) (hB : InvB st) :
    InvA (processLevel im st ss) ∧ InvB (processLevel im st ss) := by
  unfold processLevel
  refine foldRows_inv im ss hss hw _ ?_ st hA hB
  intro yt hyt
  have := List.mem_range.mp hyt
  have := tiles_le im.height ss hh
  omega

/-- The full generation pass establishes both invariants. -/
theorem generate_inv (im : GenImage) (hw : im.width ≤ 2 ^ 17)
    (hh : im.height ≤ 2 ^ 17) :
    InvA (generate im) ∧ InvB (generate im) := by
  have hinit : InvA initGenState ∧ InvB initGenState := by
    constructor
    · intro L tk hmem
      exact absurd hmem (List.not_mem_nil tk)
    · intro L L' hne tk hm
      exact absurd hm (List.not_mem_nil tk)
  have hstep : ∀ (l : List Nat), (∀ s ∈ l, s ≤ 5) → ∀ st : GenState,
      InvA st → InvB st →
      InvA (l.foldl (processLevel im) st) ∧ InvB (l.foldl (processLevel im) st) := by
    intro l
    induction l with
    | nil => exact fun _ st hA hB => ⟨hA, hB⟩
    | cons s t ih =>
      intro hl st hA hB
      obtain ⟨hA1, hB1⟩ := processLevel_inv im st s (hl s (List.mem_cons_self s t))
        hw hh hA hB
      exact ih (fun z hz => hl z (List.mem_cons_of_mem s hz)) _ hA1 hB1
  exact hstep [5, 4, 3, 2, 1, 0] (by decide) initGenState hinit.1 hinit.2

/-! ### Claim C3: uniform tiles recorded at different levels are disjoint -/

/-- C3: for any two uniform tiles recorded by the generation pass at
different levels, the pixel rectangles they cover (origin and side derived
from the TileKey and the level's side length 8<<level) are disjoint: no
pixel lies in both. -/
theorem uniformTiles_disjoint_across_levels (im : GenImage)
    (hw : im.width ≤ 2 ^ 17) (hh : im.height ≤ 2 ^ 17)
    (L L' : Nat) (hne : L ≠ L')
    (tk : Nat) (htk : tk ∈ (generate im).solidTiles L)
    (tk' : Nat) (htk' : tk' ∈ (generate im).solidTiles L') :
    ∀ px py,
      ¬(inRect (tileKey.x tk * tileSide L) (tileKey.y tk * tileSide L)
          (tileSide L) px py ∧
        inRect (tileKey.x tk' * tileSide L') (tileKey.y tk' * tileSide L')
          (tileSide L') px py) :=
  (generate_inv im hw hh).2 L L' hne tk htk tk' htk'

/-- A 32x16 test raster: the left half one color, the right half split
into two colors top/bottom, so the pass records one level-1 tile and four
level-0 tiles. -/
def imTwoLevels : GenImage :=
  ⟨32, 16, fun x y => if x < 16 then some 1 else if y < 8 then some 2 else some 3⟩

set_option maxRecDepth 100000 in
/-- Witness for C3: the level-1 tile and a level-0 tile recorded on
`imTwoLevels` really are disjoint. -/
theorem uniformTiles_disjoint_across_levels_witness :
    (imTwoLevels.width ≤ 2 ^ 17 ∧ imTwoLevels.height ≤ 2 ^ 17 ∧ (1 : Nat) ≠ 0 ∧
     newTileKey 1 0 0 ∈ (generate imTwoLevels).solidTiles 1 ∧
     newTileKey 0 2 0 ∈ (generate imTwoLevels).solidTiles 0) ∧
    (∀ px py,
      ¬(inRect (tileKey.x (newTileKey 1 0 0) * tileSide 1)
          (tileKey.y (newTileKey 1 0 0) * tileSide 1) (tileSide 1) px py ∧
        inRect (tileKey.x (newTileKey 0 2 0) * tileSide 0)
          (tileKey.y (newTileKey 0 2 0) * tileSide 0) (tileSide 0) px py)) :=
  ⟨⟨by decide, by decide, by decide, by decide, by decide⟩,
   uniformTiles_disjoint_across_levels imTwoLevels (by decide) (by decide)
     1 0 (by decide) (newTileKey 1 0 0) (by decide) (newTileKey 0 2 0) (by decide)⟩

/-! ### Claim C5: the uniform classification rule -/

/-- An 8x8 test raster whose single tile has exactly one opaque color at
the origin and transparent (empty) pixels everywhere else. -/
def imOneCorner : GenImage :=
  ⟨8, 8, fun x y => if x = 0 ∧ y = 0 then some 1 else none⟩

set_option maxRecDepth 100000 in
/-- C5 counterexample: on `imOneCorner` the generation pass records the
finest-level (level 0) tile as uniform even though the tile contains
empty (transparent) pixels alongside its single color — the claim says a
finest-level tile with one color plus empty pixels is not recorded. -/
theorem uniform_level0_with_empty_cex :
    newTileKey 0 0 0 ∈ (generate imOneCorner).solidTiles 0 ∧
    imOneCorner.pix 1 1 = none ∧
    imOneCorner.pix 0 0 = some 1 ∧
    (tileColors imOneCorner 0 0 (tileSide 0)).length = 1 := by decide

/-- C5 (amended): a tile (at any level, the finest included) is classified
and recorded as uniform if and only if its scan hits no erased pixel and
it contains exactly one distinct non-empty color; the presence of empty
(transparent) pixels never affects the decision. -/
theorem uniform_iff_one_color (im : GenImage) (ss xt yt : Nat) (st : GenState) :
    ((processTile im ss xt yt st).solidTiles ss =
      st.solidTiles ss ++ [newTileKey ss (xt % 65536) (yt % 65536)]) ↔
    (anyInRect st.erased (xt * tileSide ss) (yt * tileSide ss)
        (tileSide ss) (tileSide ss) = false ∧
      (tileColors im (xt * tileSide ss) (yt * tileSide ss)
        (tileSide ss)).length = 1) := by
  rw [processTile_solid_eq]
  constructor
  · intro h
    by_cases hc : anyInRect st.erased (xt * tileSide ss) (yt * tileSide ss)
        (tileSide ss) (tileSide ss) = false ∧
        (tileColors im (xt * tileSide ss) (yt * tileSide ss)
          (tileSide ss)).length = 1
    · exact hc
    · rw [if_neg hc, List.append_nil] at h
      exact absurd h (by simp)
  · intro hc
    rw [if_pos hc]

/-! ### Claim C4: per-level tables are sorted -/

/-- Appending a strict upper bound preserves a strictly increasing chain. -/
theorem chain_append_singleton {l : List Nat} {k : Nat}
    (hc : List.Chain' (· < ·) l) (hub : ∀ x ∈ l, x < k) :
    List.Chain' (· < ·) (l ++ [k]) := by
  rw [List.chain'_append]
  refine ⟨hc, List.chain'_singleton k, ?_⟩
  intro x hx y hy
  have hxl : x ∈ l := List.mem_of_mem_getLast? hx
  have hyk : y = k := by
    have := hy
    simp only [List.head?_cons, Option.mem_def, Option.some.injEq] at this
    exact this.symm
  rw [hyk]
  exact hub x hxl

/-- The key recorded for tile (xt, yt) at level ss, in plain positional
arithmetic (in-range coordinates). -/
theorem newTileKey_canon {ss xt yt : Nat} (hx : xt < 16384) (hy : yt < 16384) :
    newTileKey ss (xt % 65536) (yt % 65536) =
      ss % 8 * 268435456 + yt * 16384 + xt := by
  rw [newTileKey_eq]
  have e14 : (2 : Nat) ^ 14 = 16384 := by norm_num
  have e28 : (2 : Nat) ^ 28 = 268435456 := by norm_num
  rw [e14, e28]
  omega

/-- A row pass keeps the processed level's list strictly increasing, and
bounds its keys by the key just past the row's end. -/
theorem row_chain (im : GenImage) (ss yt : Nat) (st : GenState)
    (hyt : yt < 16384)
    (hchain : List.Chain' (· < ·) (st.solidTiles ss))
    (hub : ∀ tk ∈ st.solidTiles ss, tk < ss % 8 * 268435456 + yt * 16384) :
    ∀ n, n ≤ 16384 →
      List.Chain' (· < ·)
        (((List.range n).foldl (fun s xt => processTile im ss xt yt s) st).solidTiles ss) ∧
      ∀ tk ∈ ((List.range n).foldl (fun s xt => processTile im ss xt yt s) st).solidTiles ss,
        tk < ss % 8 * 268435456 + yt * 16384 + n := by
  intro n
  induction n with
  | zero =>
    intro _
    simp only [List.range_zero, List.foldl_nil]
    exact ⟨hchain, fun tk h => by have := hub tk h; omega⟩
  | succ k ih =>
    intro hk
    obtain ⟨ihc, ihub⟩ := ih (by omega)
    rw [List.range_succ, List.foldl_append, List.foldl_cons, List.foldl_nil]
    have hcanon := @newTileKey_canon ss k yt (by omega) hyt
    by_cases hcond : anyInRect
        (((List.range k).foldl (fun s xt => processTile im ss xt yt s) st).erased)
        (k * tileSide ss) (yt * tileSide ss) (tileSide ss) (tileSide ss) = false ∧
        (tileColors im (k * tileSide ss) (yt * tileSide ss) (tileSide ss)).length = 1
    · rw [processTile_solid_eq, if_pos hcond]
      constructor
      · refine chain_append_singleton ihc ?_
        intro x hx
        have := ihub x hx
        omega
      · intro tk htk
        rcases List.mem_append.mp htk with hmem | hmem
        · have := ihub tk hmem
          omega
        · rw [List.mem_singleton.mp hmem, hcanon]
          omega
    · rw [processTile_solid_eq, if_neg hcond, List.append_nil]
      exact ⟨ihc, fun tk htk => by have := ihub tk htk; omega⟩

/-- A level pass over a table that starts empty leaves that level's list
strictly increasing. -/
theorem level_chain (im : GenImage) (ss : Nat) (st : GenState)
    (hw : im.width ≤ 2 ^ 17) (hh : im.height ≤ 2 ^ 17)
    (h0 : st.solidTiles ss = []) :
    List.Chain' (· < ·) ((processLevel im st ss).solidTiles ss) := by
  have hwt : im.width / tileSide ss ≤ 16384 := by
    have := tiles_le im.width ss hw
    norm_num at this
    exact this
  have hht : im.height / tileSide ss ≤ 16384 := by
    have := tiles_le im.height ss hh
    norm_num at this
    exact this
  have H : ∀ m, m ≤ 16384 →
      List.Chain' (· < ·)
        (((List.range m).foldl (fun s yt => processRow im ss yt s) st).solidTiles ss) ∧
      ∀ tk ∈ ((List.range m).foldl (fun s yt => processRow im ss yt s) st).solidTiles ss,
        tk < ss % 8 * 268435456 + m * 16384 := by
    intro m
    induction m with
    | zero =>
      intro _
      simp only [List.range_zero, List.foldl_nil]
      rw [h0]
      exact ⟨List.chain'_nil, fun tk h => absurd h (List.not_mem_nil tk)⟩
    | succ k ih =>
      intro hk
      obtain ⟨ihc, ihub⟩ := ih (by omega)
      rw [List.range_succ, List.foldl_append, List.foldl_cons, List.foldl_nil]
      obtain ⟨c, ub⟩ := row_chain im ss k
        ((List.range k).foldl (fun s yt => processRow im ss yt s) st)
        (by omega) ihc (fun tk h => ihub tk h)
        (im.width / tileSide ss) hwt
      refine ⟨c, fun tk htk => ?_⟩
      have := ub tk htk
      omega
  exact (H (im.height / tileSide ss) hht).1

/-- A row pass leaves other levels' lists untouched. -/
theorem processRow_solid_ne (im : GenImage) (ss yt : Nat) (st : GenState)
    {L : Nat} (h : L ≠ ss) :
    (processRow im ss yt st).solidTiles L = st.solidTiles L := by
  unfold processRow
  have H : ∀ (l : List Nat) (s : GenState),
      ((l.foldl (fun s xt => processTile im ss xt yt s) s).solidTiles L) =
        s.solidTiles L := by
    intro l
    induction l with
    | nil => exact fun s => rfl
    | cons x xs ih =>
      intro s
      rw [List.foldl_cons, ih, processTile_solid_ne im ss x yt s h]
  exact H _ st

/-- A level pass leaves other levels' lists untouched. -/
theorem processLevel_solid_ne (im : GenImage) (st : GenState) (ss : Nat)
    {L : Nat} (h : L ≠ ss) :
    (processLevel im st ss).solidTiles L = st.solidTiles L := by
  unfold processLevel
  have H : ∀ (l : List Nat) (s : GenState),
      ((l.foldl (fun s yt => processRow im ss yt s) s).solidTiles L) =
        s.solidTiles L := by
    intro l
    induction l with
    | nil => exact fun s => rfl
    | cons y ys ih =>
      intro s
      rw [List.foldl_cons, ih, processRow_solid_ne im ss y s h]
  exact H _ st

/-- Folding level passes over levels that do not include L leaves level
L's list untouched. -/
theorem foldLevels_solid_ne (im : GenImage) {L : Nat} (lvls : List Nat)
    (h : L ∉ lvls) (st : GenState) :
    ((lvls.foldl (processLevel im) st)).solidTiles L = st.solidTiles L := by
  induction lvls generalizing st with
  | nil => rfl
  | cons s t ih =>
    have hne : L ≠ s := fun he => h (he ▸ List.mem_cons_self s t)
    rw [List.foldl_cons, ih (fun hm => h (List.mem_cons_of_mem s hm)),
      processLevel_solid_ne im st s hne]

/-- C4: for every level, the sequence of TileKeys recorded into that
level's table — the order in which the (TileKey, RegionIndex) records are
serialized, since the writer emits `solidTiles[size]` in list order — is
strictly increasing as raw integers, and every key carries that level in
its level field. -/
theorem perLevelTable_sorted (im : GenImage) (hw : im.width ≤ 2 ^ 17)
    (hh : im.height ≤ 2 ^ 17) (L : Nat) (hL : L ≤ 5) :
    List.Chain' (· < ·) ((generate im).solidTiles L) ∧
    ∀ tk ∈ (generate im).solidTiles L, tileKey.size tk = L := by
  refine ⟨?_, fun tk htk => ((generate_inv im hw hh).1 L tk htk).2.1⟩
  interval_cases L
  · have hdecomp : generate im =
        processLevel im ([5, 4, 3, 2, 1].foldl (processLevel im) initGenState) 0 := rfl
    rw [hdecomp]
    refine level_chain im 0 _ hw hh ?_
    rw [foldLevels_solid_ne im [5, 4, 3, 2, 1] (by decide)]
    rfl
  · have hdecomp : generate im =
        [0].foldl (processLevel im)
          (processLevel im ([5, 4, 3, 2].foldl (processLevel im) initGenState) 1) := rfl
    rw [hdecomp, foldLevels_solid_ne im [0] (by decide)]
    refine level_chain im 1 _ hw hh ?_
    rw [foldLevels_solid_ne im [5, 4, 3, 2] (by decide)]
    rfl
  · have hdecomp : generate im =
        [1, 0].foldl (processLevel im)
          (processLevel im ([5, 4, 3].foldl (processLevel im) initGenState) 2) := rfl
    rw [hdecomp, foldLevels_solid_ne im [1, 0] (by decide)]
    refine level_chain im 2 _ hw hh ?_
    rw [foldLevels_solid_ne im [5, 4, 3] (by decide)]
    rfl
  · have hdecomp : generate im =
        [2, 1, 0].foldl (processLevel im)
          (processLevel im ([5, 4].foldl (processLevel im) initGenState) 3) := rfl
    rw [hdecomp, foldLevels_solid_ne im [2, 1, 0] (by decide)]
    refine level_chain im 3 _ hw hh ?_
    rw [foldLevels_solid_ne im [5, 4] (by decide)]
    rfl
  · have hdecomp : generate im =
        [3, 2, 1, 0].foldl (processLevel im)
          (processLevel im ([5].foldl (processLevel im) initGenState) 4) := rfl
    rw [hdecomp, foldLevels_solid_ne im [3, 2, 1, 0] (by decide)]
    refine level_chain im 4 _ hw hh ?_
    rw [foldLevels_solid_ne im [5] (by decide)]
    rfl
  · have hdecomp : generate im =
        [4, 3, 2, 1, 0].foldl (processLevel im)
          (processLevel im initGenState 5) := rfl
    rw [hdecomp, foldLevels_solid_ne im [4, 3, 2, 1, 0] (by decide)]
    exact level_chain im 5 _ hw hh rfl

/-- A 24x8 test raster with three 8x8 single-color tiles in a row. -/
def imThreeCols : GenImage := ⟨24, 8, fun x _ => some (x / 8)⟩

/-- Witness for C4 on a concrete raster that records three level-0 tiles. -/
theorem perLevelTable_sorted_witness :
    (imThreeCols.width ≤ 2 ^ 17 ∧ imThreeCols.height ≤ 2 ^ 17 ∧ (0 : Nat) ≤ 5) ∧
    (List.Chain' (· < ·) ((generate imThreeCols).solidTiles 0) ∧
     ∀ tk ∈ (generate imThreeCols).solidTiles 0, tileKey.size tk = 0) :=
  ⟨⟨by decide, by decide, by decide⟩,
   perLevelTable_sorted imThreeCols (by decide) (by decide) 0 (by decide)⟩
